import Mathlib

/-!
Verification of the file selection and concatenation pipeline of
`concat_repo.py` (functions `get_files_with_extensions`,
`concatenate_files`, `save_concatenated_repo`).

The filesystem is modelled as a rose tree of named entries (regular files
with text contents, and directories).  The Python library primitives used
by the code (`str.endswith`, `os.path.join`, `os.walk`) are modelled
explicitly, following their documented semantics.  File reading is
modelled by a function `read : String → Option String`, where `none`
stands for any `open`/`read`/decode failure (missing file, permission
error, undecodable bytes): in Python such a failure raises an uncaught
exception, which the embedding represents by propagating `none`.
-/

namespace ConcatRepo

/-- Model of Python `str.endswith(suf)`: true iff `suf` is a suffix of the
string (the empty suffix always matches). -/
def endswith (s suf : String) : Bool := List.isSuffixOf suf.data s.data

/-- Model of Python `str.startswith(pre)`: true iff `pre` starts the string. -/
def startswith (s pre : String) : Bool := List.isPrefixOf pre.data s.data

/-- Model of POSIX `os.path.join(a, b)` for two components, following
CPython `posixpath.join`: an absolute second component replaces the first;
otherwise a separator is inserted unless the first component is empty or
already ends with the separator. -/
def pathJoin (a b : String) : String :=
  if startswith b "/" then b
  else if a = "" then b
  else if endswith a "/" then a ++ b
  else a ++ "/" ++ b

mutual
/-- A filesystem entry: a regular file (name, text contents) or a
directory with its children. -/
inductive Entry : Type where
  | file (name content : String)
  | dir (name : String) (entries : EntryList)
/-- The ordered children of a directory, in `os.scandir` listing order. -/
inductive EntryList : Type where
  | nil : EntryList
  | cons (e : Entry) (rest : EntryList)
end

/-- Build an `EntryList` from a Lean list, for concrete examples. -/
def entryList : List Entry → EntryList
  | [] => .nil
  | e :: rest => .cons e (entryList rest)

/-- Names of the regular files among a directory's children, in listing
order: the `files` component of the corresponding `os.walk` triple. -/
def filesOf : EntryList → List String
  | .nil => []
  | .cons (.file n _) rest => n :: filesOf rest
  | .cons (.dir _ _) rest => filesOf rest

/-- The `os.walk` triples (minus the `dirs` component, which the code
under verification never uses) contributed by the children of a directory
whose own triple has already been emitted: each subdirectory yields its
triple followed, depth first, by its own children's triples. -/
def walkList (path : String) : EntryList → List (String × List String)
  | .nil => []
  | .cons (.file _ _) rest => walkList path rest
  | .cons (.dir n sub) rest =>
      ((pathJoin path n, filesOf sub) :: walkList (pathJoin path n) sub)
        ++ walkList path rest

/-- Model of `os.walk(path)` over a readable directory tree: the root's
triple followed by the triples of all reachable subdirectories, top-down,
depth first, children in listing order. -/
def walk (path : String) (es : EntryList) : List (String × List String) :=
  (path, filesOf es) :: walkList path es

/-- Model of `os.walk(path)` including the failure case.  `none` stands
for a root that is missing, unreadable or not a directory: per the Python
documentation, `os.walk` with the default `onerror=None` ignores the error
from the initial `os.scandir` call and yields no triples at all. -/
def walkOS (fs : Option EntryList) (path : String) : List (String × List String) :=
  match fs with
  | none => []
  | some es => walk path es

/-- The per-file decision of the loop body of `get_files_with_extensions`:
a file name ending with any excluded suffix is skipped (the `skip = True;
break` path, whose `print` is a diagnostic with no effect on the result);
otherwise the file is kept iff its name ends with at least one included
suffix, and contributes `os.path.join(root, file)`. -/
def selectFile (extensions excluded_extensions : List String)
    (root file : String) : Option String :=
  if excluded_extensions.any (fun exc => endswith file exc) then none
  else if extensions.any (fun ext => endswith file ext) then some (pathJoin root file)
  else none

/-- `get_files_with_extensions(repo_path, extensions, excluded_extensions)`:
iterate over the `os.walk` triples and, for each file name, append the
joined path when the file is selected. -/
def get_files_with_extensions (fs : Option EntryList) (repo_path : String)
    (extensions excluded_extensions : List String) : List String :=
  (walkOS fs repo_path).flatMap fun rf =>
    rf.2.filterMap (selectFile extensions excluded_extensions rf.1)

/-- One iteration of the accumulation loop of `concatenate_files`: append
the header line `File: <file>\n`, then the file's contents followed by two
newlines.  A failed read (exception) turns the whole run into `none`, and
`none`, once reached, is preserved (the exception propagates). -/
def concatStep (read : String → Option String) (acc : Option String)
    (file : String) : Option String :=
  match acc, read file with
  | some c, some content => some (c ++ ("File: " ++ file ++ "\n") ++ (content ++ "\n\n"))
  | _, _ => none

/-- `concatenate_files(files)`: fold the accumulation loop over the file
list, starting from the empty string. -/
def concatenate_files (read : String → Option String) (files : List String) :
    Option String :=
  files.foldl (concatStep read) (some "")

/-- `save_concatenated_repo(repo_path, extensions, excluded_extensions,
output_path)`: select, concatenate, then write the document to the output
path.  The result records the single write performed, `none` when an
uncaught exception aborts the run before the output file is opened. -/
def save_concatenated_repo (read : String → Option String) (fs : Option EntryList)
    (repo_path : String) (extensions excluded_extensions : List String)
    (output_path : String) : Option (String × String) :=
  match concatenate_files read (get_files_with_extensions fs repo_path extensions excluded_extensions) with
  | some doc => some (output_path, doc)
  | none => none

/-- Specification-side document: the concatenation, in list order, of one
block `File: <p>\n<content p>\n\n` per path `p`. -/
def blocksDoc (content : String → String) : List String → String
  | [] => ""
  | p :: rest => ("File: " ++ p ++ "\n") ++ (content p ++ "\n\n") ++ blocksDoc content rest

/-- Number of occurrences of a pattern in a character list: the number of
suffix positions where the pattern is a prefix (intended for non-empty
patterns). -/
def countOccAux (pat : List Char) : List Char → Nat
  | [] => 0
  | c :: rest => (if List.isPrefixOf pat (c :: rest) then 1 else 0) + countOccAux pat rest

/-- Number of occurrences of a non-empty literal substring in a string. -/
def countOcc (s pat : String) : Nat := countOccAux pat.data s.data

/-- The name of an entry. -/
def nameOf : Entry → String
  | .file n _ => n
  | .dir n _ => n

/-- The names of a directory's children, in listing order. -/
def namesOf : EntryList → List String
  | .nil => []
  | .cons e rest => nameOf e :: namesOf rest

/-- A legal entry name on a real filesystem: non-empty and without the
path separator. -/
def goodName (n : String) : Bool := (n != "") && n.data.all (fun c => c != '/')

/-- Well-formedness of a directory tree as produced by a real filesystem:
every name is legal and the children of each directory have pairwise
distinct names. -/
def wfTree : EntryList → Bool
  | .nil => true
  | .cons (.file n _) rest =>
      goodName n && !(namesOf rest).contains n && wfTree rest
  | .cons (.dir n sub) rest =>
      goodName n && !(namesOf rest).contains n && wfTree sub && wfTree rest

/-- A tree with no regular file anywhere (directories allowed). -/
def noFiles : EntryList → Bool
  | .nil => true
  | .cons (.file _ _) _ => false
  | .cons (.dir _ sub) rest => noFiles sub && noFiles rest

/-- Erase every file's contents, keeping the directory structure and all
names: two trees with the same erasure differ at most in file contents. -/
def eraseContents : EntryList → EntryList
  | .nil => .nil
  | .cons (.file n _) rest => .cons (.file n "") (eraseContents rest)
  | .cons (.dir n sub) rest => .cons (.dir n (eraseContents sub)) (eraseContents rest)

/-- Names of the subdirectories among a directory's children. -/
def dirNamesOf : EntryList → List String
  | .nil => []
  | .cons (.file _ _) rest => dirNamesOf rest
  | .cons (.dir n _) rest => n :: dirNamesOf rest

/-- A character list without the path separator. -/
def noSlash (l : List Char) : Prop := ∀ c ∈ l, c ≠ '/'

/-- A well-formed root path for a traversal: non-empty and without a
trailing separator, as a canonical directory path is. -/
def goodRoot (r : String) : Prop := r ≠ "" ∧ endswith r "/" = false

/-- The maximal separator-free suffix of a character list: the last
component of a path. -/
def lastComp (l : List Char) : List Char := (l.reverse.takeWhile (fun c => c != '/')).reverse

/-!  Basic facts about strings as character lists. -/

theorem data_inj {s t : String} (h : s.data = t.data) : s = t := by
  cases s
  cases t
  exact congrArg String.mk h

theorem strdata_append (s t : String) : (s ++ t).data = s.data ++ t.data := rfl

theorem slash_data : ("/" : String).data = ['/'] := rfl

theorem str_eq_empty_iff {s : String} : s = "" ↔ s.data = [] :=
  ⟨fun h => by rw [h], fun h => data_inj h⟩

theorem str_ne_empty_iff {s : String} : s ≠ "" ↔ s.data ≠ [] :=
  not_congr str_eq_empty_iff

theorem goodName_iff {n : String} : goodName n = true ↔ n.data ≠ [] ∧ noSlash n.data := by
  unfold goodName noSlash
  rw [Bool.and_eq_true, List.all_eq_true]
  simp only [bne_iff_ne, ne_eq]
  exact and_congr (not_congr str_eq_empty_iff) Iff.rfl

/-!  takeWhile and last components. -/

theorem takeWhile_all {p : Char → Bool} : ∀ {l : List Char}, (∀ c ∈ l, p c = true) →
    l.takeWhile p = l := by
  intro l
  induction l with
  | nil => intro _; rfl
  | cons c rest ih =>
    intro h
    rw [List.takeWhile_cons_of_pos (h c (List.mem_cons_self c rest)),
      ih fun x hx => h x (List.mem_cons_of_mem c hx)]

theorem takeWhile_append_stop {p : Char → Bool} {x : Char} (hx : p x = false) :
    ∀ {a : List Char} (b : List Char), (∀ c ∈ a, p c = true) →
    (a ++ x :: b).takeWhile p = a := by
  intro a
  induction a with
  | nil => intro b _; simp [List.takeWhile_cons, hx]
  | cons c rest ih =>
    intro b h
    rw [List.cons_append, List.takeWhile_cons_of_pos (h c (List.mem_cons_self c rest)),
      ih b fun y hy => h y (List.mem_cons_of_mem c hy)]

theorem noSlash_bne {l : List Char} (h : noSlash l) : ∀ c ∈ l, (c != '/') = true := by
  intro c hc
  simpa using h c hc

theorem lastComp_noSlash {l : List Char} (h : noSlash l) : lastComp l = l := by
  unfold lastComp
  rw [takeWhile_all fun c hc => noSlash_bne h c (List.mem_reverse.mp hc), List.reverse_reverse]

theorem lastComp_append {r f : List Char} (hf : noSlash f) :
    lastComp (r ++ '/' :: f) = f := by
  unfold lastComp
  rw [List.reverse_append, List.reverse_cons, List.append_assoc, List.singleton_append,
    takeWhile_append_stop (by decide) r.reverse
      fun c hc => noSlash_bne hf c (List.mem_reverse.mp hc),
    List.reverse_reverse]

/-!  Facts about the path-join model. -/

theorem startswith_slash_false {f : String} (hne : f.data ≠ []) (hf : noSlash f.data) :
    startswith f "/" = false := by
  obtain ⟨c, t, hct⟩ := List.exists_cons_of_ne_nil hne
  have hc : c ≠ '/' := by
    have : c ∈ f.data := by rw [hct]; exact List.mem_cons_self c t
    exact fun h => hf c this (h ▸ rfl)
  show List.isPrefixOf ("/" : String).data f.data = false
  rw [slash_data, hct]
  simp [List.isPrefixOf]
  exact fun h => hc h.symm

theorem endswith_slash_false {s : String} {t f : List Char} (hst : s.data = t ++ f)
    (hne : f ≠ []) (hf : noSlash f) : endswith s "/" = false := by
  obtain ⟨c, u, hcu⟩ := List.exists_cons_of_ne_nil (fun h => hne (by
    have := congrArg List.reverse h
    simpa using this) : f.reverse ≠ [])
  have hc : c ≠ '/' := by
    have : c ∈ f := List.mem_reverse.mp (by rw [hcu]; exact List.mem_cons_self c u)
    exact hf c this
  show List.isSuffixOf ("/" : String).data s.data = false
  rw [slash_data, hst]
  show List.isPrefixOf ['/'] (t ++ f).reverse = false
  rw [List.reverse_append, hcu, List.cons_append]
  simp [List.isPrefixOf]
  exact fun h => hc h.symm

theorem pathJoin_eq_of_good {r f : String} (hr : goodRoot r) (hf : goodName f = true) :
    pathJoin r f = r ++ "/" ++ f := by
  obtain ⟨hne, hns⟩ := goodName_iff.mp hf
  unfold pathJoin
  rw [startswith_slash_false hne hns]
  simp [hr.1, hr.2]

theorem goodRoot_join {r d : String} (hr : goodRoot r) (hd : goodName d = true) :
    goodRoot (pathJoin r d) := by
  obtain ⟨hne, hns⟩ := goodName_iff.mp hd
  rw [pathJoin_eq_of_good hr hd]
  constructor
  · rw [str_ne_empty_iff]
    show (r.data ++ ['/']) ++ d.data ≠ []
    simp
  · exact endswith_slash_false (t := r.data ++ ['/']) (f := d.data) rfl hne hns

theorem pathJoin_data_lastComp {r f : String} (hf : noSlash f.data) :
    lastComp (pathJoin r f).data = f.data := by
  unfold pathJoin
  by_cases h1 : startswith f "/" = true
  · have : ('/' : Char) ∈ f.data := by
      have hp : List.isPrefixOf ("/" : String).data f.data = true := h1
      have : (("/" : String).data) <+: f.data := List.isPrefixOf_iff_prefix.mp hp
      exact this.subset (by rw [slash_data]; exact List.mem_singleton_self '/')
    exact absurd rfl (hf '/' this)
  · rw [Bool.not_eq_true] at h1
    rw [h1]
    simp only [Bool.false_eq_true, if_false]
    by_cases h2 : r = ""
    · rw [if_pos h2]
      exact lastComp_noSlash hf
    · rw [if_neg h2]
      by_cases h3 : endswith r "/" = true
      · rw [h3]
        simp only [if_true]
        have : List.isPrefixOf ['/'] r.data.reverse = true := h3
        obtain ⟨u, hu⟩ := List.isPrefixOf_iff_prefix.mp this
        have hr : r.data = u.reverse ++ ['/'] := by
          have := congrArg List.reverse hu
          simpa using this.symm
        show lastComp (r.data ++ f.data) = f.data
        rw [hr, List.append_assoc, List.singleton_append]
        exact lastComp_append hf
      · rw [Bool.not_eq_true] at h3
        rw [h3]
        simp only [Bool.false_eq_true, if_false]
        show lastComp ((r.data ++ ['/']) ++ f.data) = f.data
        rw [List.append_assoc, List.singleton_append]
        exact lastComp_append hf

theorem pathJoin_file_inj {r₁ r₂ f₁ f₂ : String} (h₁ : noSlash f₁.data) (h₂ : noSlash f₂.data)
    (h : pathJoin r₁ f₁ = pathJoin r₂ f₂) : f₁ = f₂ := by
  apply data_inj
  rw [← pathJoin_data_lastComp (r := r₁) h₁, ← pathJoin_data_lastComp (r := r₂) h₂, h]

theorem pathJoin_root_inj {r₁ r₂ f : String} (h₁ : goodRoot r₁) (h₂ : goodRoot r₂)
    (hf : goodName f = true) (h : pathJoin r₁ f = pathJoin r₂ f) : r₁ = r₂ := by
  rw [pathJoin_eq_of_good h₁ hf, pathJoin_eq_of_good h₂ hf] at h
  have hd : (r₁.data ++ ['/']) ++ f.data = (r₂.data ++ ['/']) ++ f.data := congrArg String.data h
  have := List.append_cancel_right hd
  exact data_inj (List.append_cancel_right this)

theorem slashfree_append_inj {a b : List Char} (_ha : noSlash a) (hb : noSlash b)
    (h : a ++ ['/'] <+: b ++ ['/']) : a = b := by
  have hlen : a.length ≤ b.length := by
    have := h.length_le
    simpa using this
  have hab : a <+: b :=
    List.prefix_of_prefix_length_le ((List.prefix_append a ['/']).trans h)
      (List.prefix_append b ['/']) hlen
  obtain ⟨u, hu⟩ := hab
  rcases u with _ | ⟨c, u'⟩
  · simpa using hu
  · exfalso
    have hc : c ∈ b := by
      rw [← hu]
      exact List.mem_append_right a (List.mem_cons_self c u')
    subst hu
    rw [List.append_assoc] at h
    have : ['/'] <+: c :: (u' ++ ['/']) := (List.prefix_append_right_inj a).mp h
    obtain ⟨v, hv⟩ := this
    rw [List.singleton_append] at hv
    have : c = '/' := (List.cons.injEq '/' (v) c (u' ++ ['/'])).mp hv |>.1 |>.symm
    exact hb c hc this

/-!  Counting literal occurrences. -/

theorem countOccAux_append (pat a b : List Char) :
    countOccAux pat a + countOccAux pat b ≤ countOccAux pat (a ++ b) := by
  induction a with
  | nil => simp [countOccAux]
  | cons c rest ih =>
    rw [List.cons_append]
    show (if List.isPrefixOf pat (c :: rest) then 1 else 0) + countOccAux pat rest + countOccAux pat b ≤
      (if List.isPrefixOf pat (c :: (rest ++ b)) then 1 else 0) + countOccAux pat (rest ++ b)
    by_cases hp : List.isPrefixOf pat (c :: rest) = true
    · have hq : List.isPrefixOf pat (c :: (rest ++ b)) = true := by
        rw [ List.isPrefixOf_iff_prefix, ← List.cons_append]
        exact ( List.isPrefixOf_iff_prefix.mp hp).trans (List.prefix_append (c :: rest) b)
      simp only [hp, hq, if_true]
      have := ih
      omega
    · rw [Bool.not_eq_true] at hp
      simp only [hp, Bool.false_eq_true, if_false]
      have := ih
      by_cases hq : List.isPrefixOf pat (c :: (rest ++ b)) = true
      · simp only [hq, if_true]
        omega
      · rw [Bool.not_eq_true] at hq
        simp only [hq, Bool.false_eq_true, if_false]
        omega

theorem countOccAux_head {pat : List Char} (rest : List Char) (h : pat ≠ []) :
    1 ≤ countOccAux pat (pat ++ rest) := by
  obtain ⟨c, t, hct⟩ := List.exists_cons_of_ne_nil h
  subst hct
  rw [List.cons_append]
  show 1 ≤ (if List.isPrefixOf (c :: t) (c :: (t ++ rest)) then 1 else 0) + countOccAux (c :: t) (t ++ rest)
  have : List.isPrefixOf (c :: t) (c :: (t ++ rest)) = true := by
    rw [ List.isPrefixOf_iff_prefix, ← List.cons_append]
    exact List.prefix_append (c :: t) rest
  rw [this]
  simp

/-!  Concatenation: relating the loop to the block-structured document. -/

theorem concatStep_none (read : String → Option String) (file : String) :
    concatStep read none file = none := by
  unfold concatStep
  cases read file <;> rfl

theorem foldl_concatStep_none (read : String → Option String) :
    ∀ L : List String, List.foldl (concatStep read) none L = none := by
  intro L
  induction L with
  | nil => rfl
  | cons p rest ih => rw [List.foldl_cons, concatStep_none, ih]

theorem foldl_concatStep (read : String → Option String) (content : String → String) :
    ∀ (L : List String) (c : String), (∀ p ∈ L, read p = some (content p)) →
    List.foldl (concatStep read) (some c) L = some (c ++ blocksDoc content L) := by
  intro L
  induction L with
  | nil =>
    intro c _
    simp [blocksDoc, String.append_empty]
  | cons p rest ih =>
    intro c h
    have hp : read p = some (content p) := h p (List.mem_cons_self p rest)
    rw [List.foldl_cons]
    have hstep : concatStep read (some c) p =
        some (c ++ ("File: " ++ p ++ "\n") ++ (content p ++ "\n\n")) := by
      unfold concatStep
      rw [hp]
    rw [hstep, ih _ fun x hx => h x (List.mem_cons_of_mem p hx)]
    congr 1
    apply data_inj
    simp only [blocksDoc, strdata_append, List.append_assoc]

theorem concatenate_files_eq (read : String → Option String) (content : String → String)
    (L : List String) (h : ∀ p ∈ L, read p = some (content p)) :
    concatenate_files read L = some (blocksDoc content L) := by
  have := foldl_concatStep read content L "" h
  rw [concatenate_files, this]
  rfl

theorem concatenate_files_read_fail (read : String → Option String) {f : String} :
    ∀ {L : List String}, f ∈ L → read f = none → concatenate_files read L = none := by
  have key : ∀ (L : List String) (acc : Option String), f ∈ L → read f = none →
      List.foldl (concatStep read) acc L = none := by
    intro L
    induction L with
    | nil => intro acc h; exact absurd h (List.not_mem_nil f)
    | cons p rest ih =>
      intro acc h hr
      rw [List.foldl_cons]
      rcases List.mem_cons.mp h with h | h
      · subst h
        have : concatStep read acc f = none := by
          unfold concatStep
          rw [hr]
          cases acc <;> rfl
        rw [this]
        exact foldl_concatStep_none read rest
      · exact ih _ h hr
  intro L hf hr
  exact key L (some "") hf hr

theorem blocksDoc_append (content : String → String) :
    ∀ L₁ L₂ : List String,
    blocksDoc content (L₁ ++ L₂) = blocksDoc content L₁ ++ blocksDoc content L₂ := by
  intro L₁ L₂
  induction L₁ with
  | nil => rfl
  | cons p rest ih =>
    show ("File: " ++ p ++ "\n") ++ (content p ++ "\n\n") ++ blocksDoc content (rest ++ L₂) = _
    rw [ih]
    show _ = (("File: " ++ p ++ "\n") ++ (content p ++ "\n\n") ++ blocksDoc content rest) ++ _
    apply data_inj
    simp only [strdata_append, List.append_assoc]

theorem marker_ne_nil : ("File: " : String).data ≠ [] := by decide

theorem countOcc_blocksDoc_ge (content : String → String) :
    ∀ L : List String, L.length ≤ countOcc (blocksDoc content L) "File: " := by
  intro L
  induction L with
  | nil => simp [countOcc, blocksDoc, countOccAux]
  | cons p rest ih =>
    show (p :: rest).length ≤ countOccAux ("File: " : String).data (blocksDoc content (p :: rest)).data
    have hdata : (blocksDoc content (p :: rest)).data =
        ("File: " : String).data ++ ((p ++ "\n" ++ (content p ++ "\n\n")).data ++ (blocksDoc content rest).data) := by
      show (("File: " ++ p ++ "\n") ++ (content p ++ "\n\n") ++ blocksDoc content rest).data = _
      simp only [strdata_append, List.append_assoc]
    rw [hdata, List.length_cons]
    have h1 : 1 ≤ countOccAux ("File: " : String).data
        (("File: " : String).data ++ (p ++ "\n" ++ (content p ++ "\n\n")).data) :=
      countOccAux_head _ marker_ne_nil
    have h2 := countOccAux_append ("File: " : String).data
      (("File: " : String).data ++ (p ++ "\n" ++ (content p ++ "\n\n")).data)
      (blocksDoc content rest).data
    rw [List.append_assoc] at h2
    have := ih
    unfold countOcc at this
    omega

theorem countOcc_header_ge (content : String → String) {p : String} {L : List String}
    (hp : p ∈ L) : 1 ≤ countOcc (blocksDoc content L) ("File: " ++ p ++ "\n") := by
  obtain ⟨L₁, L₂, hL⟩ := List.append_of_mem hp
  subst hL
  rw [blocksDoc_append]
  show 1 ≤ countOccAux ("File: " ++ p ++ "\n").data (blocksDoc content L₁ ++ blocksDoc content (p :: L₂)).data
  have hdata : (blocksDoc content L₁ ++ blocksDoc content (p :: L₂)).data =
      (blocksDoc content L₁).data ++
        (("File: " ++ p ++ "\n").data ++ ((content p ++ "\n\n") ++ blocksDoc content L₂).data) := by
    show (blocksDoc content L₁ ++ (("File: " ++ p ++ "\n") ++ (content p ++ "\n\n") ++ blocksDoc content L₂)).data = _
    simp only [strdata_append, List.append_assoc]
  rw [hdata]
  have hne : ("File: " ++ p ++ "\n").data ≠ [] := by
    show (("File: " ++ p).data ++ ("\n" : String).data) ≠ []
    simp
  have h1 : 1 ≤ countOccAux ("File: " ++ p ++ "\n").data
      (("File: " ++ p ++ "\n").data ++ ((content p ++ "\n\n") ++ blocksDoc content L₂).data) :=
    countOccAux_head _ hne
  have h2 := countOccAux_append ("File: " ++ p ++ "\n").data
    (blocksDoc content L₁).data
    (("File: " ++ p ++ "\n").data ++ ((content p ++ "\n\n") ++ blocksDoc content L₂).data)
  omega

/-!  Structure of the walk over well-formed trees. -/

theorem entry_induction (motive : EntryList → Prop) (h0 : motive .nil)
    (h1 : ∀ n c rest, motive rest → motive (.cons (.file n c) rest))
    (h2 : ∀ n sub rest, motive sub → motive rest → motive (.cons (.dir n sub) rest)) :
    ∀ es, motive es
  | .nil => h0
  | .cons (.file n c) rest => h1 n c rest (entry_induction motive h0 h1 h2 rest)
  | .cons (.dir n sub) rest =>
      h2 n sub rest (entry_induction motive h0 h1 h2 sub) (entry_induction motive h0 h1 h2 rest)

theorem wf_file {n c : String} {rest : EntryList} (h : wfTree (.cons (.file n c) rest) = true) :
    goodName n = true ∧ (namesOf rest).contains n = false ∧ wfTree rest = true := by
  unfold wfTree at h
  simp only [Bool.and_eq_true, Bool.not_eq_true'] at h
  exact ⟨h.1.1, h.1.2, h.2⟩

theorem wf_dir {n : String} {sub rest : EntryList} (h : wfTree (.cons (.dir n sub) rest) = true) :
    goodName n = true ∧ (namesOf rest).contains n = false ∧ wfTree sub = true ∧ wfTree rest = true := by
  unfold wfTree at h
  simp only [Bool.and_eq_true, Bool.not_eq_true'] at h
  exact ⟨h.1.1.1, h.1.1.2, h.1.2, h.2⟩

theorem not_mem_of_contains_false {n : String} {l : List String} (h : l.contains n = false) :
    n ∉ l := by
  intro hm
  have : l.contains n = true := List.elem_iff.mpr hm
  rw [h] at this
  exact Bool.false_ne_true this

theorem dirNames_subset_names : ∀ (es : EntryList) (d : String),
    d ∈ dirNamesOf es → d ∈ namesOf es := by
  intro es
  induction es using entry_induction with
  | h0 => intro d h; exact absurd h (List.not_mem_nil d)
  | h1 n c rest ih => intro d h; exact List.mem_cons_of_mem _ (ih d h)
  | h2 n sub rest ihs ihr =>
    intro d h
    rcases List.mem_cons.mp h with h | h
    · exact h ▸ List.mem_cons_self _ _
    · exact List.mem_cons_of_mem _ (ihr d h)

theorem filesOf_subset_names : ∀ (es : EntryList) (f : String),
    f ∈ filesOf es → f ∈ namesOf es := by
  intro es
  induction es using entry_induction with
  | h0 => intro f h; exact absurd h (List.not_mem_nil f)
  | h1 n c rest ih =>
    intro f h
    rcases List.mem_cons.mp h with h | h
    · exact h ▸ List.mem_cons_self _ _
    · exact List.mem_cons_of_mem _ (ih f h)
  | h2 n sub rest ihs ihr => intro f h; exact List.mem_cons_of_mem _ (ihr f h)

theorem wf_names_good : ∀ (es : EntryList), wfTree es = true →
    ∀ n ∈ namesOf es, goodName n = true := by
  intro es
  induction es using entry_induction with
  | h0 => intro _ n h; exact absurd h (List.not_mem_nil n)
  | h1 m c rest ih =>
    intro hwf n h
    rcases List.mem_cons.mp h with h | h
    · exact h ▸ (wf_file hwf).1
    · exact ih (wf_file hwf).2.2 n h
  | h2 m sub rest ihs ihr =>
    intro hwf n h
    rcases List.mem_cons.mp h with h | h
    · exact h ▸ (wf_dir hwf).1
    · exact ihr (wf_dir hwf).2.2.2 n h

theorem wf_filesOf_nodup : ∀ (es : EntryList), wfTree es = true → (filesOf es).Nodup := by
  intro es
  induction es using entry_induction with
  | h0 => intro _; exact List.nodup_nil
  | h1 n c rest ih =>
    intro hwf
    obtain ⟨_, hcon, hrest⟩ := wf_file hwf
    refine List.nodup_cons.mpr ⟨fun hm => ?_, ih hrest⟩
    exact not_mem_of_contains_false hcon (filesOf_subset_names rest n hm)
  | h2 n sub rest ihs ihr => intro hwf; exact ihr (wf_dir hwf).2.2.2

theorem walkList_root_good : ∀ (es : EntryList) (q : String), wfTree es = true → goodRoot q →
    ∀ rf ∈ walkList q es, goodRoot rf.1 := by
  intro es
  induction es using entry_induction with
  | h0 => intro q _ _ rf h; simp [walkList] at h
  | h1 n c rest ih =>
    intro q hwf hq rf h
    exact ih q (wf_file hwf).2.2 hq rf (by simpa [walkList] using h)
  | h2 n sub rest ihs ihr =>
    intro q hwf hq rf h
    obtain ⟨hn, hcon, hsub, hrest⟩ := wf_dir hwf
    simp only [walkList] at h
    rcases List.mem_append.mp h with h | h
    · rcases List.mem_cons.mp h with h | h
      · rw [h]; exact goodRoot_join hq hn
      · exact ihs (pathJoin q n) hsub (goodRoot_join hq hn) rf h
    · exact ihr q hrest hq rf h

theorem walk_root_good {es : EntryList} {q r : String} {fl : List String}
    (hwf : wfTree es = true) (hq : goodRoot q) (h : (r, fl) ∈ walk q es) : goodRoot r := by
  rcases List.mem_cons.mp h with h | h
  · injection h with h1 _
    exact h1 ▸ hq
  · exact walkList_root_good es q hwf hq (r, fl) h

theorem walkList_files : ∀ (es : EntryList) (q r : String) (fl : List String),
    wfTree es = true → (r, fl) ∈ walkList q es →
    ∃ es', fl = filesOf es' ∧ wfTree es' = true := by
  intro es
  induction es using entry_induction with
  | h0 => intro q r fl _ h; simp [walkList] at h
  | h1 n c rest ih =>
    intro q r fl hwf h
    exact ih q r fl (wf_file hwf).2.2 (by simpa [walkList] using h)
  | h2 n sub rest ihs ihr =>
    intro q r fl hwf h
    obtain ⟨hn, hcon, hsub, hrest⟩ := wf_dir hwf
    simp only [walkList] at h
    rcases List.mem_append.mp h with h | h
    · rcases List.mem_cons.mp h with h | h
      · injection h with _ h2
        exact ⟨sub, h2, hsub⟩
      · exact ihs (pathJoin q n) r fl hsub h
    · exact ihr q r fl hrest h

theorem walk_files {es : EntryList} {q r : String} {fl : List String}
    (hwf : wfTree es = true) (h : (r, fl) ∈ walk q es) :
    ∃ es', fl = filesOf es' ∧ wfTree es' = true := by
  rcases List.mem_cons.mp h with h | h
  · injection h with _ h2
    exact ⟨es, h2, hwf⟩
  · exact walkList_files es q r fl hwf h

theorem walkList_under : ∀ (es : EntryList) (q : String), wfTree es = true → goodRoot q →
    ∀ r fl, (r, fl) ∈ walkList q es →
    ∃ d, d ∈ dirNamesOf es ∧
      (r = q ++ "/" ++ d ∨ ((q ++ "/" ++ d).data ++ ['/']) <+: r.data) := by
  intro es
  induction es using entry_induction with
  | h0 => intro q _ _ r fl h; simp [walkList] at h
  | h1 n c rest ih =>
    intro q hwf hq r fl h
    exact ih q (wf_file hwf).2.2 hq r fl (by simpa [walkList] using h)
  | h2 n sub rest ihs ihr =>
    intro q hwf hq r fl h
    obtain ⟨hn, hcon, hsub, hrest⟩ := wf_dir hwf
    have hjoin : pathJoin q n = q ++ "/" ++ n := pathJoin_eq_of_good hq hn
    simp only [walkList] at h
    rcases List.mem_append.mp h with h | h
    · rcases List.mem_cons.mp h with h | h
      · injection h with h1 _
        exact ⟨n, List.mem_cons_self _ _, Or.inl (h1.symm ▸ hjoin)⟩
      · obtain ⟨d', hd', hc⟩ :=
          ihs (pathJoin q n) hsub (goodRoot_join hq hn) r fl h
        refine ⟨n, List.mem_cons_self _ _, Or.inr ?_⟩
        rcases hc with hc | hc
        · rw [hc, hjoin]
          show ((q ++ "/" ++ n).data ++ ['/']) <+: ((q ++ "/" ++ n).data ++ ['/']) ++ d'.data
          exact List.prefix_append _ _
        · refine List.IsPrefix.trans ?_ hc
          rw [hjoin]
          show ((q ++ "/" ++ n).data ++ ['/']) <+:
            (((q ++ "/" ++ n).data ++ ['/']) ++ d'.data) ++ ['/']
          exact (List.prefix_append _ _).trans (List.prefix_append _ _)
    · obtain ⟨d', hd', hc⟩ := ihr q hrest hq r fl h
      exact ⟨d', List.mem_cons_of_mem _ hd', hc⟩

theorem walkList_ext {es : EntryList} {q : String} (hwf : wfTree es = true) (hq : goodRoot q)
    {r : String} {fl : List String} (h : (r, fl) ∈ walkList q es) :
    (q.data ++ ['/']) <+: r.data := by
  obtain ⟨d, hd, hcase⟩ := walkList_under es q hwf hq r fl h
  rcases hcase with hcase | hcase
  · rw [hcase]
    show (q.data ++ ['/']) <+: (q.data ++ ['/']) ++ d.data
    exact List.prefix_append _ _
  · refine List.IsPrefix.trans ?_ hcase
    show (q.data ++ ['/']) <+: ((q.data ++ ['/']) ++ d.data) ++ ['/']
    exact (List.prefix_append _ _).trans (List.prefix_append _ _)

theorem slash_mem_of_extends {x y : List Char} (h : x ++ ['/'] <+: y) : ('/' : Char) ∈ y := by
  obtain ⟨t, ht⟩ := h
  rw [← ht]
  exact List.mem_append_left t (List.mem_append_right x (List.mem_singleton_self '/'))

theorem under_both {q n d : String} (hn : noSlash n.data) (hd : noSlash d.data) {r : String}
    (h1 : (q.data ++ ['/']) ++ (n.data ++ ['/']) <+: r.data)
    (h2 : (q.data ++ ['/']) ++ (d.data ++ ['/']) <+: r.data) : n = d := by
  rcases le_total ((q.data ++ ['/']) ++ (n.data ++ ['/'])).length
      ((q.data ++ ['/']) ++ (d.data ++ ['/'])).length with hle | hle
  · have hpre := List.prefix_of_prefix_length_le h1 h2 hle
    have := (List.prefix_append_right_inj _).mp hpre
    exact data_inj (slashfree_append_inj hn hd this)
  · have hpre := List.prefix_of_prefix_length_le h2 h1 hle
    have := (List.prefix_append_right_inj _).mp hpre
    exact (data_inj (slashfree_append_inj hd hn this)).symm

theorem walkList_roots_nodup : ∀ (es : EntryList) (q : String), wfTree es = true → goodRoot q →
    ((walkList q es).map Prod.fst).Nodup := by
  intro es
  induction es using entry_induction with
  | h0 => intro q _ _; simp [walkList]
  | h1 n c rest ih =>
    intro q hwf hq
    simpa [walkList] using ih q (wf_file hwf).2.2 hq
  | h2 n sub rest ihs ihr =>
    intro q hwf hq
    obtain ⟨hn, hcon, hsub, hrest⟩ := wf_dir hwf
    have hq' : goodRoot (pathJoin q n) := goodRoot_join hq hn
    have hjoin : pathJoin q n = q ++ "/" ++ n := pathJoin_eq_of_good hq hn
    have hnns : noSlash n.data := (goodName_iff.mp hn).2
    simp only [walkList, List.map_append, List.map_cons]
    rw [List.cons_append, List.nodup_cons]
    constructor
    · intro hmem
      rcases List.mem_append.mp hmem with hmem | hmem
      · obtain ⟨⟨r, fl⟩, hrf, heq⟩ := List.mem_map.mp hmem
        have heq' : r = pathJoin q n := heq
        have hext := walkList_ext hsub hq' hrf
        rw [heq'] at hext
        have hlen := hext.length_le
        rw [List.length_append, List.length_singleton] at hlen
        omega
      · obtain ⟨⟨r, fl⟩, hrf, heq⟩ := List.mem_map.mp hmem
        have heq' : r = pathJoin q n := heq
        obtain ⟨d', hd', hc⟩ := walkList_under rest q hrest hq r fl hrf
        have hd'g : goodName d' = true :=
          wf_names_good rest hrest d' (dirNames_subset_names rest d' hd')
        have hd'ns : noSlash d'.data := (goodName_iff.mp hd'g).2
        rcases hc with hc | hc
        · rw [heq', hjoin] at hc
          have hdata : (q.data ++ ['/']) ++ n.data = (q.data ++ ['/']) ++ d'.data :=
            congrArg String.data hc
          have hnd : n = d' := data_inj (List.append_cancel_left hdata)
          exact not_mem_of_contains_false hcon (dirNames_subset_names rest n (hnd ▸ hd'))
        · rw [heq', hjoin] at hc
          have hc2 : (q.data ++ ['/']) ++ (d'.data ++ ['/']) <+: (q.data ++ ['/']) ++ n.data := by
            have h' : ((q.data ++ ['/']) ++ d'.data) ++ ['/'] <+: (q.data ++ ['/']) ++ n.data := hc
            rwa [List.append_assoc] at h'
          have := (List.prefix_append_right_inj _).mp hc2
          exact hnns '/' (slash_mem_of_extends this) rfl
    · rw [List.nodup_append]
      refine ⟨ihs (pathJoin q n) hsub hq', ihr q hrest hq, ?_⟩
      intro r hr1 hr2
      obtain ⟨⟨r1, fl1⟩, hrf1, heq1⟩ := List.mem_map.mp hr1
      have heq1' : r1 = r := heq1
      obtain ⟨⟨r2, fl2⟩, hrf2, heq2⟩ := List.mem_map.mp hr2
      have heq2' : r2 = r := heq2
      have hext := walkList_ext hsub hq' hrf1
      rw [heq1', hjoin] at hext
      have hA : (q.data ++ ['/']) ++ (n.data ++ ['/']) <+: r.data := by
        have h' : ((q.data ++ ['/']) ++ n.data) ++ ['/'] <+: r.data := hext
        rwa [List.append_assoc] at h'
      obtain ⟨d', hd', hc⟩ := walkList_under rest q hrest hq r2 fl2 hrf2
      rw [heq2'] at hc
      have hd'g : goodName d' = true :=
        wf_names_good rest hrest d' (dirNames_subset_names rest d' hd')
      have hd'ns : noSlash d'.data := (goodName_iff.mp hd'g).2
      rcases hc with hc | hc
      · have hrdata : r.data = (q.data ++ ['/']) ++ d'.data := congrArg String.data hc
        rw [hrdata] at hA
        have := (List.prefix_append_right_inj _).mp hA
        exact hd'ns '/' (slash_mem_of_extends this) rfl
      · have hB : (q.data ++ ['/']) ++ (d'.data ++ ['/']) <+: r.data := by
          have h' : ((q.data ++ ['/']) ++ d'.data) ++ ['/'] <+: r.data := hc
          rwa [List.append_assoc] at h'
        have hnd : n = d' := under_both hnns hd'ns hA hB
        exact not_mem_of_contains_false hcon (dirNames_subset_names rest n (hnd ▸ hd'))

theorem walk_roots_nodup {es : EntryList} {q : String} (hwf : wfTree es = true)
    (hq : goodRoot q) : ((walk q es).map Prod.fst).Nodup := by
  show (q :: (walkList q es).map Prod.fst).Nodup
  rw [List.nodup_cons]
  constructor
  · intro hmem
    obtain ⟨⟨r, fl⟩, hrf, heq⟩ := List.mem_map.mp hmem
    have heq' : r = q := heq
    have hext := walkList_ext hwf hq hrf
    rw [heq'] at hext
    have hlen := hext.length_le
    rw [List.length_append, List.length_singleton] at hlen
    omega
  · exact walkList_roots_nodup es q hwf hq

/-!  The per-file selection decision. -/

theorem selectFile_some {exts excs : List String} {r f p : String}
    (h : selectFile exts excs r f = some p) :
    excs.any (fun e => endswith f e) = false ∧ exts.any (fun e => endswith f e) = true ∧
      p = pathJoin r f := by
  unfold selectFile at h
  by_cases h1 : excs.any (fun e => endswith f e) = true
  · rw [h1] at h
    simp at h
  · rw [Bool.not_eq_true] at h1
    rw [h1] at h
    simp only [Bool.false_eq_true, if_false] at h
    by_cases h2 : exts.any (fun e => endswith f e) = true
    · rw [h2] at h
      simp only [if_true, Option.some.injEq] at h
      exact ⟨h1, h2, h.symm⟩
    · rw [Bool.not_eq_true] at h2
      rw [h2] at h
      simp at h

theorem selectFile_eq_some {exts excs : List String} {f : String} (r : String)
    (hexc : excs.any (fun e => endswith f e) = false)
    (hinc : exts.any (fun e => endswith f e) = true) :
    selectFile exts excs r f = some (pathJoin r f) := by
  unfold selectFile
  rw [hexc, hinc]
  simp

theorem selectFile_nil_exts (excs : List String) (r f : String) :
    selectFile [] excs r f = none := by
  unfold selectFile
  simp only [List.any_nil, Bool.false_eq_true, if_false]
  split <;> rfl

theorem mem_get_files {fs : EntryList} {path p : String} {exts excs : List String} :
    p ∈ get_files_with_extensions (some fs) path exts excs ↔
      ∃ rf ∈ walk path fs, ∃ f ∈ rf.2, selectFile exts excs rf.1 f = some p := by
  unfold get_files_with_extensions walkOS
  simp only [List.mem_flatMap, List.mem_filterMap]

theorem count_filterMap_eq {α β : Type} [DecidableEq α] [DecidableEq β] (g : α → Option β)
    (y : β) (a : α) : ∀ l : List α, (∀ x ∈ l, (g x = some y ↔ x = a)) →
    (l.filterMap g).count y = l.count a := by
  intro l
  induction l with
  | nil => intro _; rfl
  | cons x rest ih =>
    intro h
    have hx := h x (List.mem_cons_self x rest)
    have htail := ih fun z hz => h z (List.mem_cons_of_mem x hz)
    by_cases hxa : x = a
    · subst hxa
      rw [List.filterMap_cons, hx.mpr rfl, List.count_cons_self, List.count_cons_self, htail]
    · rw [List.filterMap_cons]
      rcases hgx : g x with _ | z
      · rw [List.count_cons_of_ne (fun hax => hxa hax.symm), htail]
      · have hzy : z ≠ y := fun hzy => hxa (hx.mp (by rw [hgx, hzy]))
        rw [List.count_cons_of_ne (fun hyz => hzy hyz.symm),
          List.count_cons_of_ne (fun hax => hxa hax.symm), htail]

/-!  Empty trees and content erasure. -/

theorem noFiles_filesOf : ∀ (es : EntryList), noFiles es = true → filesOf es = [] := by
  intro es
  induction es using entry_induction with
  | h0 => intro _; rfl
  | h1 n c rest ih => intro h; exact absurd h (by simp [noFiles])
  | h2 n sub rest ihs ihr =>
    intro h
    unfold noFiles at h
    rw [Bool.and_eq_true] at h
    exact ihr h.2

theorem noFiles_walkList : ∀ (es : EntryList) (q : String), noFiles es = true →
    ∀ rf ∈ walkList q es, rf.2 = [] := by
  intro es
  induction es using entry_induction with
  | h0 => intro q _ rf h; simp [walkList] at h
  | h1 n c rest ih => intro q h rf hm; exact absurd h (by simp [noFiles])
  | h2 n sub rest ihs ihr =>
    intro q h rf hm
    unfold noFiles at h
    rw [Bool.and_eq_true] at h
    simp only [walkList] at hm
    rcases List.mem_append.mp hm with hm | hm
    · rcases List.mem_cons.mp hm with hm | hm
      · rw [hm]
        exact noFiles_filesOf sub h.1
      · exact ihs (pathJoin q n) h.1 rf hm
    · exact ihr q h.2 rf hm

theorem filesOf_erase : ∀ (es : EntryList), filesOf (eraseContents es) = filesOf es := by
  intro es
  induction es using entry_induction with
  | h0 => rfl
  | h1 n c rest ih => simp only [eraseContents, filesOf, ih]
  | h2 n sub rest ihs ihr => simp only [eraseContents, filesOf, ihr]

theorem walkList_erase : ∀ (es : EntryList) (q : String),
    walkList q (eraseContents es) = walkList q es := by
  intro es
  induction es using entry_induction with
  | h0 => intro q; rfl
  | h1 n c rest ih => intro q; simp only [eraseContents, walkList, ih]
  | h2 n sub rest ihs ihr =>
    intro q
    simp only [eraseContents, walkList, filesOf_erase, ihs, ihr]

theorem walk_erase (q : String) (es : EntryList) : walk q (eraseContents es) = walk q es := by
  unfold walk
  rw [filesOf_erase, walkList_erase]

/-!  The claims. -/

/-- C1: for every list of readable file paths, `concatenate_files` returns
exactly the concatenation, in list order, of one block per path consisting
of the header `File: <p>` and a newline, the file's contents verbatim, and
two newline characters; in particular the headers enumerate the input list
in the same order. -/
theorem claim1_concatenation_exact (read : String → Option String)
    (content : String → String) (L : List String)
    (h : ∀ p ∈ L, read p = some (content p)) :
    concatenate_files read L = some (blocksDoc content L) :=
  concatenate_files_eq read content L h

theorem claim1_witness :
    concatenate_files
      (fun p => if p = "a.py" then some "AA" else if p = "b.py" then some "BB" else none)
      ["a.py", "b.py"] = some "File: a.py\nAA\n\nFile: b.py\nBB\n\n" := by
  have h := claim1_concatenation_exact
    (fun p => if p = "a.py" then some "AA" else if p = "b.py" then some "BB" else none)
    (fun p => if p = "a.py" then "AA" else "BB") ["a.py", "b.py"] (by decide)
  rw [h]
  rfl

/-- C2: a file of the tree whose name ends with an excluded suffix never
contributes its joined path to the selection, even when an included suffix
also matches: exclusion takes precedence. -/
theorem claim2_exclusion_precedence {fs : EntryList} {path root file e : String}
    {fl : List String} (exts excs : List String)
    (hwf : wfTree fs = true)
    (hmem : (root, fl) ∈ walk path fs) (hfile : file ∈ fl)
    (he : e ∈ excs) (hends : endswith file e = true) :
    pathJoin root file ∉ get_files_with_extensions (some fs) path exts excs := by
  intro hp
  obtain ⟨rf, hrf, f', hf', hsel⟩ := mem_get_files.mp hp
  obtain ⟨hexc', _, hpeq⟩ := selectFile_some hsel
  obtain ⟨es1, hfl1, hwf1⟩ := walk_files hwf hmem
  have hfileg : goodName file = true :=
    wf_names_good es1 hwf1 file (filesOf_subset_names es1 file (hfl1 ▸ hfile))
  obtain ⟨es2, hfl2, hwf2⟩ := walk_files hwf hrf
  have hf'g : goodName f' = true :=
    wf_names_good es2 hwf2 f' (filesOf_subset_names es2 f' (hfl2 ▸ hf'))
  have hff : file = f' :=
    pathJoin_file_inj (goodName_iff.mp hfileg).2 (goodName_iff.mp hf'g).2 hpeq
  have hany : excs.any (fun x => endswith file x) = true := List.any_eq_true.mpr ⟨e, he, hends⟩
  rw [← hff] at hexc'
  rw [hany] at hexc'
  simp at hexc'

theorem claim2_witness :
    pathJoin "r" "x.pb.go" ∉
      get_files_with_extensions (some (entryList [.file "x.pb.go" "c"])) "r" [".go"] [".pb.go"] :=
  claim2_exclusion_precedence [".go"] [".pb.go"] (by decide)
    (by decide : ("r", ["x.pb.go"]) ∈ walk "r" (entryList [.file "x.pb.go" "c"]))
    (by decide : "x.pb.go" ∈ ["x.pb.go"])
    (by decide : ".pb.go" ∈ [".pb.go"]) (by decide)

/-- C3: a file of the tree whose name ends with an included suffix and no
excluded suffix appears in the selection exactly once. -/
theorem claim3_included_file_once {fs : EntryList} {path root file : String} {fl : List String}
    (exts excs : List String)
    (hwf : wfTree fs = true) (hpath : goodRoot path)
    (hmem : (root, fl) ∈ walk path fs) (hfile : file ∈ fl)
    (hexc : excs.any (fun e => endswith file e) = false)
    (hinc : exts.any (fun e => endswith file e) = true) :
    (get_files_with_extensions (some fs) path exts excs).count (pathJoin root file) = 1 := by
  obtain ⟨es1, hfl1, hwf1⟩ := walk_files hwf hmem
  have hfileg : goodName file = true :=
    wf_names_good es1 hwf1 file (filesOf_subset_names es1 file (hfl1 ▸ hfile))
  have hfilens : noSlash file.data := (goodName_iff.mp hfileg).2
  have hflnd : fl.Nodup := by
    rw [hfl1]
    exact wf_filesOf_nodup es1 hwf1
  have hroot : goodRoot root := walk_root_good hwf hpath hmem
  obtain ⟨w₁, w₂, hw⟩ := List.append_of_mem hmem
  have hnd := walk_roots_nodup hwf hpath
  rw [hw, List.map_append, List.map_cons, List.nodup_middle, List.nodup_cons] at hnd
  obtain ⟨hroot_not, _⟩ := hnd
  show ((walk path fs).flatMap fun rf => rf.2.filterMap (selectFile exts excs rf.1)).count
      (pathJoin root file) = 1
  rw [hw, List.flatMap_append, List.flatMap_cons, List.count_append, List.count_append]
  have hmid : (fl.filterMap (selectFile exts excs root)).count (pathJoin root file) =
      fl.count file := by
    apply count_filterMap_eq
    intro f' hf'
    constructor
    · intro hsel
      obtain ⟨_, _, hpeq⟩ := selectFile_some hsel
      exact (pathJoin_file_inj hfilens
        (goodName_iff.mp (wf_names_good es1 hwf1 f'
          (filesOf_subset_names es1 f' (hfl1 ▸ hf')))).2 hpeq).symm
    · intro hfe
      subst hfe
      exact selectFile_eq_some root hexc hinc
  have hcnt : fl.count file = 1 := List.count_eq_one_of_mem hflnd hfile
  have hside : ∀ w : List (String × List String),
      (∀ rf ∈ w, rf ∈ walk path fs) → (∀ rf ∈ w, rf.1 ≠ root) →
      (w.flatMap fun rf => rf.2.filterMap (selectFile exts excs rf.1)).count
        (pathJoin root file) = 0 := by
    intro w hsub hne
    rw [List.count_eq_zero]
    intro hmem'
    obtain ⟨rf, hrf, hp⟩ := List.mem_flatMap.mp hmem'
    obtain ⟨f', hf', hsel⟩ := List.mem_filterMap.mp hp
    obtain ⟨_, _, hpeq⟩ := selectFile_some hsel
    obtain ⟨es2, hfl2, hwf2⟩ := walk_files hwf (hsub rf hrf)
    have hf'g : goodName f' = true :=
      wf_names_good es2 hwf2 f' (filesOf_subset_names es2 f' (hfl2 ▸ hf'))
    have hff : file = f' := pathJoin_file_inj hfilens (goodName_iff.mp hf'g).2 hpeq
    have hrg : goodRoot rf.1 := walk_root_good hwf hpath (hsub rf hrf)
    have hreq : root = rf.1 := by
      apply pathJoin_root_inj hroot hrg hfileg
      rw [← hff] at hpeq
      exact hpeq
    exact hne rf hrf hreq.symm
  rw [hside w₁ (fun rf hrf => by rw [hw]; exact List.mem_append_left _ hrf)
      (fun rf hrf hreq => hroot_not (List.mem_append_left _ (List.mem_map.mpr ⟨rf, hrf, hreq⟩))),
    hside w₂ (fun rf hrf => by rw [hw]; exact List.mem_append_right _ (List.mem_cons_of_mem _ hrf))
      (fun rf hrf hreq => hroot_not (List.mem_append_right _ (List.mem_map.mpr ⟨rf, hrf, hreq⟩))),
    hmid, hcnt]

theorem claim3_witness :
    (get_files_with_extensions
      (some (entryList [.file "a.go" "GA", .file "a_test.go" "GT",
        .file "b.py" "PB", .file "README.md" "MD"])) "repo" [".go"] ["_test.go"]).count
      (pathJoin "repo" "a.go") = 1 :=
  claim3_included_file_once [".go"] ["_test.go"] (by decide) ⟨by decide, by decide⟩
    (by decide : ("repo", ["a.go", "a_test.go", "b.py", "README.md"]) ∈
      walk "repo" (entryList [.file "a.go" "GA", .file "a_test.go" "GT",
        .file "b.py" "PB", .file "README.md" "MD"]))
    (by decide : "a.go" ∈ ["a.go", "a_test.go", "b.py", "README.md"])
    (by decide) (by decide)

/-- C4 counterexample: with one readable file whose content itself contains
the marker, the produced document holds two occurrences of `File: `, not
one; the count is not the length of the path list. -/
theorem claim4_counterexample :
    concatenate_files (fun _ => some "File: x") ["a.py"] = some "File: a.py\nFile: x\n\n" ∧
    countOcc "File: a.py\nFile: x\n\n" "File: " ≠ (["a.py"] : List String).length := by
  constructor
  · rfl
  · decide

/-- C4 (amended): the document holds at least `len L` occurrences of the
marker `File: `, and for each path of the list the full header line
`File: <p>` followed by a newline occurs at least once; the count is exact
only when neither paths nor contents contain the marker themselves. -/
theorem claim4_marker_lower_bound (read : String → Option String)
    (content : String → String) (L : List String)
    (h : ∀ p ∈ L, read p = some (content p)) :
    ∃ doc, concatenate_files read L = some doc ∧
      L.length ≤ countOcc doc "File: " ∧
      ∀ p ∈ L, 1 ≤ countOcc doc ("File: " ++ p ++ "\n") := by
  refine ⟨blocksDoc content L, concatenate_files_eq read content L h,
    countOcc_blocksDoc_ge content L, ?_⟩
  intro p hp
  exact countOcc_header_ge content hp

theorem claim4_witness :
    ∃ doc, concatenate_files (fun p => if p = "a.py" then some "File: z" else none)
        ["a.py"] = some doc ∧
      (["a.py"] : List String).length ≤ countOcc doc "File: " ∧
      ∀ p ∈ (["a.py"] : List String), 1 ≤ countOcc doc ("File: " ++ p ++ "\n") :=
  claim4_marker_lower_bound (fun p => if p = "a.py" then some "File: z" else none)
    (fun _ => "File: z") ["a.py"] (by decide)

/-- C5 counterexample: with a missing (or unreadable, or non-directory)
root, `os.walk` under its default `onerror=None` yields nothing, so
selection returns the empty list instead of failing before traversal. -/
theorem claim5_counterexample :
    get_files_with_extensions none "/missing" [".py"] [".pyc"] = [] := rfl

/-- C5 (amended): when the root is missing, unreadable or not a directory,
the scandir error is silently ignored: selection returns the empty list,
no error is raised, and the run completes, writing an empty document to
the output path. -/
theorem claim5_missing_root_empty (read : String → Option String) (path : String)
    (exts excs : List String) (out : String) :
    get_files_with_extensions none path exts excs = [] ∧
    save_concatenated_repo read none path exts excs out = some (out, "") :=
  ⟨rfl, rfl⟩

/-- C6: when some selected path fails to read, `concatenate_files` raises
(returns `none`) and the whole of `save_concatenated_repo` fails with no
output file written: no partial document is produced. -/
theorem claim6_no_partial_output (read : String → Option String) (fs : Option EntryList)
    (path : String) (exts excs : List String) (out : String) {f : String}
    (hf : f ∈ get_files_with_extensions fs path exts excs) (hr : read f = none) :
    concatenate_files read (get_files_with_extensions fs path exts excs) = none ∧
    save_concatenated_repo read fs path exts excs out = none := by
  have h1 := concatenate_files_read_fail read hf hr
  refine ⟨h1, ?_⟩
  unfold save_concatenated_repo
  rw [h1]

theorem claim6_witness :
    concatenate_files (fun _ => none)
      (get_files_with_extensions (some (entryList [.file "a.py" "x"])) "r" [".py"] []) = none ∧
    save_concatenated_repo (fun _ => none) (some (entryList [.file "a.py" "x"]))
      "r" [".py"] [] "out.txt" = none :=
  claim6_no_partial_output (fun _ => none) (some (entryList [.file "a.py" "x"]))
    "r" [".py"] [] "out.txt"
    (by decide :
      "r/a.py" ∈ get_files_with_extensions (some (entryList [.file "a.py" "x"])) "r" [".py"] [])
    rfl

/-- C7: over a tree with no regular file anywhere, selection returns the
empty list, and concatenating the empty list yields the empty string. -/
theorem claim7_empty_tree (read : String → Option String) (fs : EntryList) (path : String)
    (exts excs : List String) (hnf : noFiles fs = true) :
    get_files_with_extensions (some fs) path exts excs = [] ∧
    concatenate_files read ([] : List String) = some "" := by
  refine ⟨?_, rfl⟩
  show ((walk path fs).flatMap fun rf => rf.2.filterMap (selectFile exts excs rf.1)) = []
  rw [List.flatMap_eq_nil_iff]
  intro rf hrf
  have h2 : rf.2 = [] := by
    rcases List.mem_cons.mp hrf with h | h
    · rw [h]
      exact noFiles_filesOf fs hnf
    · exact noFiles_walkList fs path hnf rf h
  rw [h2]
  rfl

theorem claim7_witness :
    get_files_with_extensions (some (entryList [.dir "d" .nil])) "r" [".py"] [".pyc"] = [] ∧
    concatenate_files (fun _ => none) ([] : List String) = some "" :=
  claim7_empty_tree (fun _ => none) (entryList [.dir "d" .nil]) "r" [".py"] [".pyc"] (by decide)

/-- C8: selection is a pure function of the filesystem state: two runs
against the same unchanged tree return the same list (hence the same set)
of selected files. -/
theorem claim8_idempotent (fs₁ fs₂ : Option EntryList) (path : String)
    (exts excs : List String) (h : fs₁ = fs₂) :
    get_files_with_extensions fs₁ path exts excs =
      get_files_with_extensions fs₂ path exts excs := by
  rw [h]

theorem claim8_witness :
    get_files_with_extensions (some (entryList [.file "a.py" "x"])) "r" [".py"] [] =
      get_files_with_extensions (some (entryList [.file "a.py" "x"])) "r" [".py"] [] :=
  claim8_idempotent _ _ "r" [".py"] [] rfl

/-- C9: selection is independent of file contents: two trees with the same
structure and names but arbitrary contents yield the same selected list. -/
theorem claim9_content_independent (fs₁ fs₂ : EntryList) (path : String)
    (exts excs : List String) (h : eraseContents fs₁ = eraseContents fs₂) :
    get_files_with_extensions (some fs₁) path exts excs =
      get_files_with_extensions (some fs₂) path exts excs := by
  have h1 : walk path fs₁ = walk path fs₂ := by
    rw [← walk_erase path fs₁, ← walk_erase path fs₂, h]
  show ((walk path fs₁).flatMap fun rf => rf.2.filterMap (selectFile exts excs rf.1)) =
    ((walk path fs₂).flatMap fun rf => rf.2.filterMap (selectFile exts excs rf.1))
  rw [h1]

theorem claim9_witness :
    get_files_with_extensions (some (entryList [.file "a.py" "hello"])) "r" [".py"] [] =
      get_files_with_extensions (some (entryList [.file "a.py" "world"])) "r" [".py"] [] :=
  claim9_content_independent (entryList [.file "a.py" "hello"])
    (entryList [.file "a.py" "world"]) "r" [".py"] [] rfl

/-- C10: with an empty include-suffix list, selection returns the empty
list without failing, and the resulting document is the empty string. -/
theorem claim10_empty_includes (read : String → Option String) (fs : Option EntryList)
    (path : String) (excs : List String) :
    get_files_with_extensions fs path [] excs = [] ∧
    concatenate_files read (get_files_with_extensions fs path [] excs) = some "" := by
  have h : get_files_with_extensions fs path [] excs = [] := by
    unfold get_files_with_extensions
    rw [List.flatMap_eq_nil_iff]
    intro rf _
    rw [List.filterMap_eq_nil_iff]
    intro f _
    exact selectFile_nil_exts excs rf.1 f
  refine ⟨h, ?_⟩
  rw [h]
  rfl

end ConcatRepo
